import Mathlib

/-!
# Verification of the SBV → WebVTT conversion core

This file is a shallow embedding, in Lean 4, of the conversion core found in
`src/functions/api/convert.ts` of the `sbvtovtt` repository: SBV parsing into
timed cues, timestamp normalization, and phrase-aware HTML-safe italicization
with whole-word/whole-phrase boundary matching.

Strings are modelled as `List Char`.  JavaScript regular expressions are not
reimplemented as a generic engine; instead each of the three concrete patterns
of the source is embedded by its matching semantics:

* `/^(\d+):(\d{2}):(\d{2}\.\d{3})$/` (in `normalizeHour`) becomes `tsParse`;
* `/^(.+?),(.+?)$/` (the time-line split in `sbvToVtt`) becomes
  `splitTimeLine`, including the fact that `.` does not match line
  terminators and that the lazy groups select the first comma that has at
  least one character on each side;
* the italics pattern `(^|NOT_WORD)(P1|P2|...)(?=$|NOT_WORD)` built by
  `buildItalicsRegex` and consumed with `matchAll` becomes a token matcher
  (`Tok`, `matchToks`, `tryAlts`) plus a left-to-right scanner (`scanAux`)
  that reproduces the alternation order, greedy `\s+` runs, the uncaptured
  lookahead, and the `lastIndex` advancement of the `g` flag.  Note that the
  builder's attempt to restore the `\s+` it inserted into each phrase is a
  no-op: `escapeRegex` turns the inserted `\s+` into the four characters
  `\\s\+`, and the undo `replace(/\\s\+/g, ..)` searches for the literal
  three-character text `\s+`, which never occurs in `escapeRegex` output (a
  raw `+` there is always preceded by `\`).  `compilePhrase` therefore
  compiles every whitespace run to the literal characters `\`, `s`, `+`,
  exactly as the code behaves; `Tok.ws` expresses the `\s+` matcher the
  pattern language supports (and the builder intended), and the general
  theorems quantify over rules that may contain it.

The scanner and the cue parser advance by computed amounts, so they are
written with an explicit fuel argument that provably dominates their loop
counts (every iteration consumes at least one element of the list, plus one
extra step for the start-of-line state); the public wrappers supply
sufficient fuel.  All definitions are executable and reduce in the kernel.

The Unicode classes `\p{L}`/`\p{N}` (word characters), the `i`-flag case
folding and the UTF-16 string length are modelled by `isWordCh`, `ciEq` and
`jsLen`; the first two agree with JavaScript on the ASCII range, which is the
range this development evaluates on, and `jsLen` counts UTF-16 code units
exactly like the `.length` used by the source's sort comparator.
-/

/-- The character set matched by JavaScript `\s` (and removed by
`String.prototype.trim`): ASCII whitespace, NBSP, the Unicode space
separators, the line separators and the BOM. -/
def isJsWs (c : Char) : Bool :=
  c = ' ' || c = '\t' || c = '\n' || c = '\r' || c = '\u000B' || c = '\u000C' ||
  c.val = 0x00A0 || c.val = 0x1680 || (0x2000 ≤ c.val && c.val ≤ 0x200A) ||
  c.val = 0x2028 || c.val = 0x2029 || c.val = 0x202F || c.val = 0x205F ||
  c.val = 0x3000 || c.val = 0xFEFF

/-- JavaScript line terminators, which `.` in a regex does not match. -/
def isLineTerm (c : Char) : Bool :=
  c = '\n' || c = '\r' || c.val = 0x2028 || c.val = 0x2029

/-- The source's `WORD_CH` class `[\p{L}\p{N}]` (any Unicode letter or
digit).  Modelled by ASCII alphanumerics; it agrees with the Unicode classes
on the ASCII range, which is all this development evaluates on. -/
def isWordCh (c : Char) : Bool :=
  c.isAlphanum

/-- Case-insensitive character comparison, modelling the `i` regex flag
(exact on ASCII, where JavaScript's case folding is `toLowerCase`). -/
def ciEq (a b : Char) : Bool :=
  a.toLower = b.toLower

/-- The UTF-16 size of one character: what one `Char` contributes to a
JavaScript string's `.length`. -/
def utf16Size (c : Char) : Nat :=
  if c.val < 0x10000 then 1 else 2

/-- JavaScript `.length` of a string: its number of UTF-16 code units. -/
def jsLen (l : List Char) : Nat :=
  (l.map utf16Size ).sum

/-- `String.prototype.trim`: strip `isJsWs` characters from both ends. -/
def jsTrim (l : List Char) : List Char :=
  ((l.dropWhile isJsWs).reverse.dropWhile isJsWs).reverse

/-- One step of `escapeHtml`: the replacement applied to a single character
by `s.replace(/[&<>"']/g, ...)` in the source. -/
def escChar (c : Char) : List Char :=
  if c = '&' then ['&', 'a', 'm', 'p', ';']
  else if c = '<' then ['&', 'l', 't', ';']
  else if c = '>' then ['&', 'g', 't', ';']
  else if c = '"' then ['&', 'q', 'u', 'o', 't', ';']
  else if c = '\'' then ['&', '#', '0', '3', '9', ';']
  else [c]

/-- The source's `escapeHtml`: HTML-escape `& < > " '`, leave everything
else unchanged. -/
def escapeHtml : List Char → List Char
  | [] => []
  | c :: r => escChar c ++ escapeHtml r

/-- Parse of `/^(\d+):(\d{2}):(\d{2}\.\d{3})$/`: the three captured groups
(hours, minutes, `SS.mmm`), or `none` when the shape does not match. -/
def tsParse (l : List Char) : Option (List Char × List Char × List Char) :=
  let h := l.takeWhile Char.isDigit
  match l.dropWhile Char.isDigit with
  | ':' :: m1 :: m2 :: ':' :: s1 :: s2 :: '.' :: x1 :: x2 :: x3 :: [] =>
    if h ≠ [] ∧ m1.isDigit ∧ m2.isDigit ∧ s1.isDigit ∧ s2.isDigit ∧
        x1.isDigit ∧ x2.isDigit ∧ x3.isDigit then
      some (h, [m1, m2], [s1, s2, '.', x1, x2, x3])
    else none
  | _ => none

/-- `"h".padStart(2, "0")`: left-pad with zeros to width at least two. -/
def padStart2 (h : List Char) : List Char :=
  List.replicate (2 - h.length) '0' ++ h

/-- The source's `normalizeHour`: if the timestamp matches
`/^(\d+):(\d{2}):(\d{2}\.\d{3})$/`, left-pad the hour group and reassemble;
otherwise return the input unchanged. -/
def normalizeHour (ts : List Char) : List Char :=
  match tsParse ts with
  | none => ts
  | some (h, m, s) => padStart2 h ++ ':' :: (m ++ ':' :: s)

/-- Scanning core of the time-line match `/^(.+?),(.+?)$/`: walk the line
(with the reversed prefix seen so far in `acc`) looking for the first comma
that still has at least one character after it; the lazy first group makes
the earliest such comma win. -/
def splitTimeLineAux : List Char → List Char → Option (List Char × List Char)
  | _, [] => none
  | acc, c :: rest =>
    if c = ',' then
      if rest = [] then none else some (acc.reverse, rest)
    else splitTimeLineAux (c :: acc) rest

/-- The source's time-line match `timeLine.match(/^(.+?),(.+?)$/)`: both
groups need at least one character (so the separating comma sits at an index
of at least one and is not the last character), and `.` refuses line
terminators, so a line containing one never matches. -/
def splitTimeLine (l : List Char) : Option (List Char × List Char) :=
  if l.any isLineTerm then none
  else
    match l with
    | [] => none
    | c :: rest => splitTimeLineAux [c] rest

/-- One token of a compiled alternative: a literal character (matched
case-insensitively) or `\s+`, a one-or-more-whitespace run.  The scanner
supports both; the builder as written emits only literals, because its
escape-undo never fires (see `compilePhrase`). -/
inductive Tok where
  | lit : Char → Tok
  | ws : Tok
deriving DecidableEq

/-- One `foldr` step collapsing consecutive `\s+` tokens into one. -/
def collapseStep (t : Tok) (acc : List Tok) : List Tok :=
  match t, acc with
  | Tok.ws, Tok.ws :: _ => acc
  | _, _ => t :: acc

/-- Expansion of the builder's broken escape-undo: every whitespace run,
which the builder meant to compile to a flexible `\s+` matcher, in fact
stays escaped as `\\s\+` and so matches the literal characters
`\`, `s`, `+` in the cue text. -/
def wsLiteral : Tok → List Tok
  | Tok.ws => [Tok.lit '\\', Tok.lit 's', Tok.lit '+']
  | Tok.lit c => [Tok.lit c]

/-- Compile one phrase the way `buildItalicsRegex` builds one alternative.
The source first replaces every whitespace run by the three characters
`\s+` (`replace(/\s+/g, raw"\s+")`), then escapes regex metacharacters
(turning that run into `\\s\+`), then tries to undo the escaping with
`replace(/\\s\+/g, raw"\s+")` — but that regex matches the literal text
`\s+`, which never occurs in `escapeRegex` output (a raw `+` there is
always preceded by `\`), so the undo is a no-op.  The compiled alternative
is therefore all-literal: each non-whitespace character matches itself
(case-insensitively) and each whitespace run matches the literal characters
`\`, `s`, `+`. -/
def compilePhrase (l : List Char) : List Tok :=
  ((List.foldr collapseStep []
    (l.map (fun c => if isJsWs c then Tok.ws else Tok.lit c))).map wsLiteral ).flatten

/-- Match one alternative against the front of `s`, returning the
remaining text.  `\s+` is greedy; in any rule where a `\s+` token is
followed by a non-whitespace literal the maximal munch here coincides with
the backtracking behaviour of the regex engine (the builder's actual rules
contain no `\s+` tokens at all, only literals). -/
def matchToks : List Tok → List Char → Option (List Char)
  | [], s => some s
  | Tok.lit _ :: _, [] => none
  | Tok.lit c :: ts, d :: s => if ciEq c d then matchToks ts s else none
  | Tok.ws :: _, [] => none
  | Tok.ws :: ts, d :: s =>
    if isJsWs d then matchToks ts (s.dropWhile isJsWs) else none

/-- The trailing lookahead `(?=$|NOT_WORD)`: accept at end of line or
before a non-word character, consuming nothing. -/
def endBoundary : List Char → Bool
  | [] => true
  | c :: _ => !isWordCh c

/-- The phrase alternation `(P1|P2|...)` followed by the lookahead: regex
alternation tries the alternatives in order, and when a phrase matches but
the lookahead fails the engine backtracks into the next alternative.
Returns the number of characters the phrase consumed. -/
def tryAlts : List (List Tok) → List Char → Option Nat
  | [], _ => none
  | t :: rest, s =>
    match matchToks t s with
    | some s' => if endBoundary s' then some (s.length - s'.length) else tryAlts rest s
    | none => tryAlts rest s

/-- The `matchAll` scan of the full pattern
`(^|NOT_WORD)(P1|P2|...)(?=$|NOT_WORD)` with the `g` flag: attempt a match
at every position from left to right and resume after each match at its
end.  `s` is the text from position `pos` on; `atStart` is true only while
the scanner still sits at position 0, where the `^` alternative of the
leading boundary (consuming nothing) is tried before the one-character
`NOT_WORD` alternative.  Produces the list of `(phraseStart, phraseEnd)`
spans — the consumed leading boundary character is not part of the span.
The fuel argument dominates the loop count (each step either consumes text
or leaves the start state); callers supply `2 * length + 3`. -/
def scanAux (alts : List (List Tok)) : Nat → List Char → Nat → Bool → List (Nat × Nat)
  | 0, _, _, _ => []
  | fuel + 1, s, pos, true =>
    match tryAlts alts s with
    | some n =>
      if n = 0 then (pos, pos) :: scanAux alts fuel s.tail (pos + 1) false
      else (pos, pos + n) :: scanAux alts fuel (s.drop n) (pos + n) false
    | none => scanAux alts fuel s pos false
  | _ + 1, [], _, false => []
  | fuel + 1, c :: rest, pos, false =>
    if isWordCh c then scanAux alts fuel rest (pos + 1) false
    else
      match tryAlts alts rest with
      | some n =>
        if n = 0 then (pos + 1, pos + 1) :: scanAux alts fuel rest (pos + 1) false
        else (pos + 1, pos + 1 + n) :: scanAux alts fuel (rest.drop n) (pos + 1 + n) false
      | none => scanAux alts fuel rest (pos + 1) false

/-- All spans the italics pattern matches in `line`, in order. -/
def findMatches (alts : List (List Tok)) (line : List Char) : List (Nat × Nat) :=
  scanAux alts (2 * line.length + 3) line 0 true

/-- Output assembly of `italicizeLineWholeWords`: for each matched span emit
the escaped text since the previous span end (which re-emits the consumed
leading boundary character as ordinary escaped text), then the escaped span
wrapped in `<i>`/`</i>`; after the last span emit the escaped remainder. -/
def emitMatches (raw : List Char) : List (Nat × Nat) → Nat → List Char
  | [], last => escapeHtml (raw.drop last)
  | (ps, pe) :: ms, last =>
    escapeHtml (List.take (ps - last) (raw.drop last)) ++
      '<' :: 'i' :: '>' :: (escapeHtml (List.take (pe - ps) (raw.drop ps)) ++
        '<' :: '/' :: 'i' :: '>' :: emitMatches raw ms pe)

/-- The source's `italicizeLineWholeWords`: with no rule, plain escaping;
otherwise scan the raw line and assemble escaped segments with `<i>` markup
around each matched span. -/
def italicizeLineWholeWords (rawLine : List Char) (re : Option (List (List Tok))) :
    List Char :=
  match re with
  | none => escapeHtml rawLine
  | some alts => emitMatches rawLine (findMatches alts rawLine) 0

/-- Insert a phrase into an already-sorted (by descending `jsLen`) list,
after every phrase of greater or equal length: together with `sortByLenDesc`
this is the stable descending sort that `[...phrases].sort((a, b) =>
b.length - a.length)` performs. -/
def insertByLen (x : List Char) : List (List Char) → List (List Char)
  | [] => [x]
  | y :: ys => if jsLen y ≤ jsLen x then x :: y :: ys else y :: insertByLen x ys

/-- Stable sort by descending JavaScript string length. -/
def sortByLenDesc : List (List Char) → List (List Char)
  | [] => []
  | x :: xs => insertByLen x (sortByLenDesc xs)

/-- The source's `buildItalicsRegex`: `null` for an empty phrase list,
otherwise the longest-first alternation of the compiled phrases (each
trimmed and compiled all-literal by `compilePhrase`). -/
def buildItalicsRegex (phrases : List (List Char)) : Option (List (List Tok)) :=
  if phrases = [] then none
  else some ((sortByLenDesc phrases).map (fun p => compilePhrase (jsTrim p)))

/-- Split on `/\r?\n/` (the separator of `buildItalicsList`). -/
def splitRN : List Char → List (List Char)
  | [] => [[]]
  | '\r' :: '\n' :: rest => [] :: splitRN rest
  | '\n' :: rest => [] :: splitRN rest
  | c :: rest =>
    match splitRN rest with
    | [] => [[c]]
    | l :: ls => (c :: l) :: ls

/-- The source's `buildItalicsList`: split the phrase text into lines, trim
each, drop the blank ones. -/
def buildItalicsList (italicsText : List Char) : List (List Char) :=
  ((splitRN italicsText).map jsTrim).filter (fun l => !l.isEmpty)

/-- `sbvText.replace(/\r\n/g, "\n").replace(/\r/g, "\n")`: CRLF and lone CR
become LF. -/
def normEol : List Char → List Char
  | [] => []
  | '\r' :: '\n' :: rest => '\n' :: normEol rest
  | '\r' :: rest => '\n' :: normEol rest
  | c :: rest => c :: normEol rest

/-- `.split("\n")`, keeping empty pieces (as JavaScript does). -/
def splitOnNl : List Char → List (List Char)
  | [] => [[]]
  | '\n' :: rest => [] :: splitOnNl rest
  | c :: rest =>
    match splitOnNl rest with
    | [] => [[c]]
    | l :: ls => (c :: l) :: ls

/-- One parsed cue: normalized start, normalized end, raw text lines. -/
abbrev Cue := List Char × List Char × List (List Char)

/-- The parsing loop of the source's `sbvToVtt`, one iteration per fuel
unit: skip blank lines; discard a non-blank line whose time-line match
fails and resume at the next line; otherwise normalize the two timestamp
fields, collect the following non-blank lines as the cue text, skip the
blank separator run, and continue.  Every iteration consumes at least one
input line, so the `lines.length + 1` fuel supplied by `parseCues` never
runs out. -/
def parseCuesAux : Nat → List (List Char) → List Cue
  | 0, _ => []
  | _ + 1, [] => []
  | fuel + 1, l :: rest =>
    if jsTrim l = [] then parseCuesAux fuel rest
    else
      match splitTimeLine (jsTrim l) with
      | none => parseCuesAux fuel rest
      | some (a, b) =>
        (normalizeHour (jsTrim a), normalizeHour (jsTrim b),
            rest.takeWhile (fun x => !(jsTrim x).isEmpty)) ::
          parseCuesAux fuel
            ((rest.dropWhile (fun x => !(jsTrim x).isEmpty)).dropWhile
              (fun x => (jsTrim x).isEmpty))

/-- All cues of an SBV document, in document order. -/
def parseCues (lines : List (List Char)) : List Cue :=
  parseCuesAux (lines.length + 1) lines

/-- `.join("\n")` over the processed cue lines. -/
def joinNl : List (List Char) → List Char
  | [] => []
  | [l] => l
  | l :: ls => l ++ '\n' :: joinNl ls

/-- One emitted cue block: `start --> end\n<processed lines>\n\n`. -/
def renderCue (re : Option (List (List Tok))) (c : Cue) : List Char :=
  c.1 ++ ' ' :: '-' :: '-' :: '>' :: ' ' ::
    (c.2.1 ++ '\n' :: (joinNl (c.2.2.map (fun l => italicizeLineWholeWords l re)) ++
      '\n' :: '\n' :: []))

/-- `String.prototype.trimEnd`: strip trailing `isJsWs` characters. -/
def trimEndWs (l : List Char) : List Char :=
  (l.reverse.dropWhile isJsWs).reverse

/-- The source's `sbvToVtt`: normalize line endings, split into lines, walk
the cue blocks, and assemble `WEBVTT\n\n` plus one block per cue; finally
trim all trailing whitespace and append exactly one newline. -/
def sbvToVtt (sbvText : List Char) (re : Option (List (List Tok))) : List Char :=
  trimEndWs ("WEBVTT\n\n".data ++
      (List.map (renderCue re) (parseCues (splitOnNl (normEol sbvText)))).flatten) ++
    ['\n']

/-- The conversion core as invoked by the request handler: build the phrase
list and the matching rule from the italics text, then convert. -/
def convertCore (sbvText italicsText : String) : String :=
  String.mk (sbvToVtt sbvText.data
    (buildItalicsRegex (buildItalicsList italicsText.data)))

/-! ## Specification-side inverses for the italicizer output

`removeITags` deletes every `<i>`/`</i>` occurrence; `unescapeHtml` reverses
the five HTML entity escapes.  Claims C4 and C10 are stated with them. -/

/-- Delete every occurrence of `<i>` and `</i>`: scan left to right with the
pending partially-seen tag in `st` (one of `[]`, `"<"`, `"<i"`, `"</"`,
`"</i"`), emitting the pending text whenever it stops being a tag prefix. -/
def removeITagsGo (st : List Char) : List Char → List Char
  | [] => st
  | c :: r =>
    if st = ['<'] then
      if c = 'i' then removeITagsGo ['<', 'i'] r
      else if c = '/' then removeITagsGo ['<', '/'] r
      else if c = '<' then '<' :: removeITagsGo ['<'] r
      else '<' :: c :: removeITagsGo [] r
    else if st = ['<', 'i'] then
      if c = '>' then removeITagsGo [] r
      else if c = '<' then '<' :: 'i' :: removeITagsGo ['<'] r
      else '<' :: 'i' :: c :: removeITagsGo [] r
    else if st = ['<', '/'] then
      if c = 'i' then removeITagsGo ['<', '/', 'i'] r
      else if c = '<' then '<' :: '/' :: removeITagsGo ['<'] r
      else '<' :: '/' :: c :: removeITagsGo [] r
    else if st = ['<', '/', 'i'] then
      if c = '>' then removeITagsGo [] r
      else if c = '<' then '<' :: '/' :: 'i' :: removeITagsGo ['<'] r
      else '<' :: '/' :: 'i' :: c :: removeITagsGo [] r
    else
      if c = '<' then removeITagsGo ['<'] r
      else c :: removeITagsGo [] r

/-- Delete every occurrence of `<i>` and `</i>`. -/
def removeITags (l : List Char) : List Char :=
  removeITagsGo [] l

/-- The decoded character of one complete HTML entity of `escapeHtml`. -/
def entityVal (l : List Char) : Option Char :=
  if l = ['&', 'a', 'm', 'p', ';'] then some '&'
  else if l = ['&', 'l', 't', ';'] then some '<'
  else if l = ['&', 'g', 't', ';'] then some '>'
  else if l = ['&', 'q', 'u', 'o', 't', ';'] then some '"'
  else if l = ['&', '#', '0', '3', '9', ';'] then some '\''
  else none

/-- Proper prefixes of the five entities of `escapeHtml`. -/
def entityPre (l : List Char) : Bool :=
  l = ['&'] || l = ['&', 'a'] || l = ['&', 'a', 'm'] || l = ['&', 'a', 'm', 'p'] ||
  l = ['&', 'l'] || l = ['&', 'l', 't'] ||
  l = ['&', 'g'] || l = ['&', 'g', 't'] ||
  l = ['&', 'q'] || l = ['&', 'q', 'u'] || l = ['&', 'q', 'u', 'o'] ||
  l = ['&', 'q', 'u', 'o', 't'] ||
  l = ['&', '#'] || l = ['&', '#', '0'] || l = ['&', '#', '0', '3'] ||
  l = ['&', '#', '0', '3', '9']

/-- Reverse the five entity escapes, left to right, with the pending
partially-seen entity in `pend`. -/
def unescGo (pend : List Char) : List Char → List Char
  | [] => pend
  | c :: r =>
    match entityVal (pend ++ [c]) with
    | some d => d :: unescGo [] r
    | none =>
      if entityPre (pend ++ [c]) then unescGo (pend ++ [c]) r
      else if c = '&' then pend ++ unescGo ['&'] r
      else (pend ++ [c]) ++ unescGo [] r

/-- Reverse the five entity escapes of `escapeHtml`. -/
def unescapeHtml (l : List Char) : List Char :=
  unescGo [] l

/-- The italicizer's output decomposed: a concatenation of the two tags the
system itself inserts and of HTML escapes of single input characters.
This is the shape claim C4 asserts of every output line. -/
inductive TagSafe : List Char → Prop
  | nil : TagSafe []
  | openTag {r : List Char} : TagSafe r → TagSafe ('<' :: 'i' :: '>' :: r)
  | closeTag {r : List Char} : TagSafe r → TagSafe ('<' :: '/' :: 'i' :: '>' :: r)
  | esc (c : Char) {r : List Char} : TagSafe r → TagSafe (escChar c ++ r)

/-- The spans of a match list are in order and start no earlier than `k`:
each `(ps, pe)` has `k ≤ ps ≤ pe`, and the next span starts at `pe` or
later. -/
def ChainFrom : Nat → List (Nat × Nat) → Prop
  | _, [] => True
  | k, (a, b) :: ms => k ≤ a ∧ a ≤ b ∧ ChainFrom b ms

/-! ## Lemmas -/

theorem escapeHtml_append (a b : List Char) :
    escapeHtml (a ++ b) = escapeHtml a ++ escapeHtml b := by
  induction a with
  | nil => rfl
  | cons c a ih => simp [escapeHtml, ih]

theorem escChar_ne_lt {c d : Char} (h : d ∈ escChar c) : d ≠ '<' := by
  unfold escChar at h
  split_ifs at h with h1 h2 h3 h4 h5 <;> simp_all <;> rintro rfl <;> simp_all

theorem escapeHtml_ne_lt {l : List Char} {d : Char} (h : d ∈ escapeHtml l) : d ≠ '<' := by
  induction l with
  | nil => simp [escapeHtml] at h
  | cons c r ih =>
    simp only [escapeHtml, List.mem_append] at h
    rcases h with h | h
    · exact escChar_ne_lt h
    · exact ih h

theorem removeITagsGo_cons_ne {c : Char} (r : List Char) (h : c ≠ '<') :
    removeITagsGo [] (c :: r) = c :: removeITagsGo [] r := by
  rw [removeITagsGo]
  simp [h]

theorem removeITags_append_esc (a r : List Char) (ha : ∀ c ∈ a, c ≠ '<') :
    removeITags (a ++ r) = a ++ removeITags r := by
  unfold removeITags
  induction a with
  | nil => rfl
  | cons c a ih =>
    rw [List.cons_append, removeITagsGo_cons_ne _ (ha c (by simp)),
      ih (fun d hd => ha d (by simp [hd])), List.cons_append]

theorem removeITags_openTag (r : List Char) :
    removeITags ('<' :: 'i' :: '>' :: r) = removeITags r := rfl

theorem removeITags_closeTag (r : List Char) :
    removeITags ('<' :: '/' :: 'i' :: '>' :: r) = removeITags r := rfl

theorem unescapeHtml_escChar (c : Char) (r : List Char) :
    unescapeHtml (escChar c ++ r) = c :: unescapeHtml r := by
  by_cases h1 : c = '&'
  · subst h1; rfl
  · by_cases h2 : c = '<'
    · subst h2; rfl
    · by_cases h3 : c = '>'
      · subst h3; rfl
      · by_cases h4 : c = '"'
        · subst h4; rfl
        · by_cases h5 : c = '\''
          · subst h5; rfl
          · rw [escChar, if_neg h1, if_neg h2, if_neg h3, if_neg h4, if_neg h5,
              List.singleton_append]
            show unescGo [] (c :: r) = c :: unescGo [] r
            conv_lhs => rw [unescGo]
            simp [entityVal, entityPre, h1]

theorem unescapeHtml_escapeHtml (l : List Char) :
    unescapeHtml (escapeHtml l) = l := by
  induction l with
  | nil => rfl
  | cons c r ih => rw [escapeHtml, unescapeHtml_escChar, ih]

/-! ## Scanner invariants -/

theorem chainFrom_mono {k k' : Nat} {ms : List (Nat × Nat)} (h : k' ≤ k)
    (hc : ChainFrom k ms) : ChainFrom k' ms := by
  cases ms with
  | nil => trivial
  | cons m ms =>
    obtain ⟨a, b⟩ := m
    exact ⟨le_trans h hc.1, hc.2.1, hc.2.2⟩

theorem scanAux_chain (alts : List (List Tok)) :
    ∀ fuel s pos atStart, ChainFrom pos (scanAux alts fuel s pos atStart) := by
  intro fuel
  induction fuel with
  | zero => intro s pos atStart; trivial
  | succ fuel ih =>
    intro s pos atStart
    cases atStart with
    | true =>
      rw [scanAux]
      cases h : tryAlts alts s with
      | none => exact ih s pos false
      | some n =>
        by_cases hn : n = 0
        · simp only [hn, if_pos rfl]
          exact ⟨le_refl _, le_refl _, chainFrom_mono (Nat.le_succ _) (ih s.tail (pos + 1) false)⟩
        · simp only [if_neg hn]
          exact ⟨le_refl _, Nat.le_add_right _ _, ih (s.drop n) (pos + n) false⟩
    | false =>
      cases s with
      | nil => rw [scanAux]; trivial
      | cons c rest =>
        rw [scanAux]
        by_cases hw : isWordCh c
        · simp only [if_pos hw]
          exact chainFrom_mono (Nat.le_succ _) (ih rest (pos + 1) false)
        · simp only [if_neg hw]
          cases h : tryAlts alts rest with
          | none => exact chainFrom_mono (Nat.le_succ _) (ih rest (pos + 1) false)
          | some n =>
            by_cases hn : n = 0
            · simp only [hn, if_pos rfl]
              exact ⟨Nat.le_succ _, le_refl _,
                chainFrom_mono (le_refl _) (ih rest (pos + 1) false)⟩
            · simp only [if_neg hn]
              exact ⟨Nat.le_succ _, Nat.le_add_right _ _, ih (rest.drop n) (pos + 1 + n) false⟩

/-- `matchToks` only ever consumes from the front: a successful match
returns the suffix of `s` that starts after the consumed characters. -/
theorem matchToks_drop {t : List Tok} :
    ∀ {s s' : List Char}, matchToks t s = some s' →
      s'.length ≤ s.length ∧ s.drop (s.length - s'.length) = s' := by
  induction t with
  | nil =>
    intro s s' h
    simp only [matchToks, Option.some.injEq] at h
    subst h
    exact ⟨le_refl _, by simp⟩
  | cons tok ts ih =>
    intro s s' h
    cases tok with
    | lit c =>
      cases s with
      | nil => simp [matchToks] at h
      | cons d s0 =>
        rw [matchToks] at h
        by_cases hc : ciEq c d
        · rw [if_pos hc] at h
          obtain ⟨hlen, hdrop⟩ := ih h
          refine ⟨Nat.le_succ_of_le hlen, ?_⟩
          have : (d :: s0).length - s'.length = (s0.length - s'.length) + 1 := by
            simp only [List.length_cons]; omega
          rw [this, List.drop_succ_cons, hdrop]
        · rw [if_neg hc] at h; exact absurd h (by simp)
    | ws =>
      cases s with
      | nil => simp [matchToks] at h
      | cons d s0 =>
        rw [matchToks] at h
        by_cases hd : isJsWs d
        · rw [if_pos hd] at h
          obtain ⟨hlen, hdrop⟩ := ih h
          obtain ⟨j, hj, hjd⟩ : ∃ j, j ≤ s0.length ∧ s0.dropWhile isJsWs = s0.drop j := by
            clear h hlen hdrop
            induction s0 with
            | nil => exact ⟨0, by simp⟩
            | cons e s1 ih0 =>
              by_cases he : isJsWs e
              · obtain ⟨j, hj, hjd⟩ := ih0
                refine ⟨j + 1, by simpa using hj, ?_⟩
                rw [List.dropWhile_cons_of_pos he, hjd, List.drop_succ_cons]
              · exact ⟨0, by simp, by simp [List.dropWhile_cons_of_neg he]⟩
          rw [hjd] at hlen hdrop
          have hlen2 : s'.length ≤ s0.length := le_trans hlen (by simp [List.length_drop])
          refine ⟨Nat.le_succ_of_le hlen2, ?_⟩
          rw [List.drop_drop] at hdrop
          have hle : (s0.drop j).length = s0.length - j := by simp [List.length_drop]
          have : (d :: s0).length - s'.length = (j + ((s0.drop j).length - s'.length)) + 1 := by
            simp only [List.length_cons, hle]; omega
          rw [this, List.drop_succ_cons, hdrop]
        · rw [if_neg hd] at h; exact absurd h (by simp)

/-- A successful alternation step leaves the lookahead boundary satisfied
right after the consumed span. -/
theorem tryAlts_endBoundary {alts : List (List Tok)} :
    ∀ {s : List Char} {n : Nat}, tryAlts alts s = some n →
      n ≤ s.length ∧ endBoundary (s.drop n) = true := by
  induction alts with
  | nil => intro s n h; simp [tryAlts] at h
  | cons t rest ih =>
    intro s n h
    rw [tryAlts] at h
    cases hm : matchToks t s with
    | none => simp only [hm] at h; exact ih h
    | some s' =>
      simp only [hm] at h
      by_cases hb : endBoundary s' = true
      · rw [if_pos hb] at h
        obtain ⟨hlen, hdrop⟩ := matchToks_drop hm
        simp only [Option.some.injEq] at h
        subst h
        exact ⟨Nat.sub_le _ _, by rw [hdrop]; exact hb⟩
      · rw [if_neg hb] at h; exact ih h

/-- Every span the scanner reports is bounded: the phrase start is the line
start or sits right after a non-word character (the consumed leading
boundary), and the phrase end is the line end or sits right before a
non-word character (the lookahead). -/
theorem scanAux_boundary (alts : List (List Tok)) (line : List Char) :
    ∀ fuel s pos atStart, s = line.drop pos → (atStart = true → pos = 0) →
      ∀ ps pe, (ps, pe) ∈ scanAux alts fuel s pos atStart →
        (ps = 0 ∨ ∃ c t, line.drop (ps - 1) = c :: t ∧ isWordCh c = false) ∧
        (line.drop pe = [] ∨ ∃ c t, line.drop pe = c :: t ∧ isWordCh c = false) := by
  intro fuel
  induction fuel with
  | zero => intro s pos atStart hs h0 ps pe hmem; simp [scanAux] at hmem
  | succ fuel ih =>
    intro s pos atStart hs h0 ps pe hmem
    have hdq : ∀ n : Nat, s.drop n = line.drop (pos + n) := by
      intro n; rw [hs, List.drop_drop, Nat.add_comm]
    have htail : s.tail = line.drop (pos + 1) := by
      rw [← hdq 1, List.drop_one]
    cases atStart with
    | true =>
      have hp0 : pos = 0 := h0 rfl
      subst hp0
      rw [scanAux] at hmem
      cases htry : tryAlts alts s with
      | none =>
        simp only [htry] at hmem
        exact ih s 0 false hs (by simp) ps pe hmem
      | some n =>
        obtain ⟨hn, hend⟩ := tryAlts_endBoundary htry
        simp only [htry] at hmem
        have hbd : line.drop n = [] ∨
            ∃ c t, line.drop n = c :: t ∧ isWordCh c = false := by
          have := hdq n
          simp only [Nat.zero_add] at this
          rw [← this]
          cases hcase : s.drop n with
          | nil => exact Or.inl rfl
          | cons c t =>
            rw [hcase] at hend
            rw [endBoundary] at hend
            exact Or.inr ⟨c, t, rfl, by simpa using hend⟩
        by_cases hz : n = 0
        · subst hz
          rw [if_pos rfl] at hmem
          rcases List.mem_cons.mp hmem with heq | hmem
          · obtain ⟨rfl, rfl⟩ := Prod.mk.inj heq
            refine ⟨Or.inl rfl, ?_⟩
            simpa using hbd
          · exact ih s.tail 1 false htail (by simp) ps pe hmem
        · rw [if_neg hz] at hmem
          rcases List.mem_cons.mp hmem with heq | hmem
          · obtain ⟨rfl, rfl⟩ := Prod.mk.inj heq
            refine ⟨Or.inl rfl, ?_⟩
            simpa using hbd
          · exact ih (s.drop n) (0 + n) false (hdq n) (by simp) ps pe hmem
    | false =>
      cases s with
      | nil => rw [scanAux] at hmem; simp at hmem
      | cons c rest =>
        have hrest : rest = line.drop (pos + 1) := by
          rw [← htail]; rfl
        rw [scanAux] at hmem
        by_cases hw : isWordCh c
        · rw [if_pos hw] at hmem
          exact ih rest (pos + 1) false hrest (by simp) ps pe hmem
        · rw [if_neg hw] at hmem
          cases htry : tryAlts alts rest with
          | none =>
            simp only [htry] at hmem
            exact ih rest (pos + 1) false hrest (by simp) ps pe hmem
          | some n =>
            obtain ⟨hn, hend⟩ := tryAlts_endBoundary htry
            simp only [htry] at hmem
            have hleft : ∃ c' t, line.drop (pos + 1 - 1) = c' :: t ∧ isWordCh c' = false := by
              refine ⟨c, rest, ?_, by simpa using hw⟩
              simpa using hs.symm
            have hbd : line.drop (pos + 1 + n) = [] ∨
                ∃ c' t, line.drop (pos + 1 + n) = c' :: t ∧ isWordCh c' = false := by
              have hr : rest.drop n = line.drop (pos + 1 + n) := by
                rw [hrest, List.drop_drop, Nat.add_comm]
              rw [← hr]
              cases hcase : rest.drop n with
              | nil => exact Or.inl rfl
              | cons c' t =>
                rw [hcase] at hend
                rw [endBoundary] at hend
                exact Or.inr ⟨c', t, rfl, by simpa using hend⟩
            by_cases hz : n = 0
            · subst hz
              rw [if_pos rfl] at hmem
              rcases List.mem_cons.mp hmem with heq | hmem
              · obtain ⟨rfl, rfl⟩ := Prod.mk.inj heq
                exact ⟨Or.inr hleft, by simpa using hbd⟩
              · exact ih rest (pos + 1) false hrest (by simp) ps pe hmem
            · rw [if_neg hz] at hmem
              rcases List.mem_cons.mp hmem with heq | hmem
              · obtain ⟨rfl, rfl⟩ := Prod.mk.inj heq
                exact ⟨Or.inr hleft, hbd⟩
              · refine ih (rest.drop n) (pos + 1 + n) false ?_ (by simp) ps pe hmem
                rw [hrest, List.drop_drop, Nat.add_comm]

/-! ## Decomposition of the italicizer output -/

/-- The three slices an ordered span cuts out of the tail of the line put
the tail back together: nothing is dropped, duplicated or reordered. -/
theorem slices_cover (raw : List Char) {last ps pe : Nat} (h1 : last ≤ ps) (h2 : ps ≤ pe) :
    List.take (ps - last) (raw.drop last) ++
      (List.take (pe - ps) (raw.drop ps) ++ raw.drop pe) = raw.drop last := by
  have e1 : raw.drop ps = List.drop (ps - last) (raw.drop last) := by
    rw [List.drop_drop]
    congr 1
    omega
  have e2 : raw.drop pe = List.drop (pe - ps) (raw.drop ps) := by
    rw [List.drop_drop]
    congr 1
    omega
  calc List.take (ps - last) (raw.drop last) ++
        (List.take (pe - ps) (raw.drop ps) ++ raw.drop pe)
      = List.take (ps - last) (raw.drop last) ++
        (List.take (pe - ps) (raw.drop ps) ++ List.drop (pe - ps) (raw.drop ps)) := by rw [← e2]
    _ = List.take (ps - last) (raw.drop last) ++ raw.drop ps := by rw [List.take_append_drop]
    _ = List.take (ps - last) (raw.drop last) ++ List.drop (ps - last) (raw.drop last) := by
        rw [← e1]
    _ = raw.drop last := List.take_append_drop _ _

/-- Removing the inserted tags from the assembled output of the italicizer
leaves exactly the HTML escape of the text from `last` on, for any ordered
match list. -/
theorem removeITags_emit (raw : List Char) :
    ∀ ms last, ChainFrom last ms →
      removeITags (emitMatches raw ms last) = escapeHtml (raw.drop last) := by
  intro ms
  induction ms with
  | nil =>
    intro last _
    rw [emitMatches]
    have := removeITags_append_esc (escapeHtml (raw.drop last)) []
      (fun c hc => escapeHtml_ne_lt hc)
    rw [List.append_nil] at this
    rw [this, show removeITags ([] : List Char) = [] from rfl, List.append_nil]
  | cons m ms ih =>
    intro last hchain
    obtain ⟨ps, pe⟩ := m
    obtain ⟨h1, h2, hch⟩ := hchain
    rw [emitMatches,
      removeITags_append_esc _ _ (fun c hc => escapeHtml_ne_lt hc),
      removeITags_openTag,
      removeITags_append_esc _ _ (fun c hc => escapeHtml_ne_lt hc),
      removeITags_closeTag, ih pe hch, ← escapeHtml_append, ← escapeHtml_append,
      slices_cover raw h1 h2]

/-- The assembled output of the italicizer is a concatenation of inserted
tags and escaped input characters, for any match list. -/
theorem tagSafe_escapeHtml_append {r : List Char} (x : List Char) (hr : TagSafe r) :
    TagSafe (escapeHtml x ++ r) := by
  induction x with
  | nil => exact hr
  | cons c x ih =>
    rw [escapeHtml, List.append_assoc]
    exact TagSafe.esc c ih

theorem tagSafe_escapeHtml (x : List Char) : TagSafe (escapeHtml x) := by
  have := tagSafe_escapeHtml_append x TagSafe.nil
  rwa [List.append_nil] at this

theorem tagSafe_emit (raw : List Char) :
    ∀ ms last, TagSafe (emitMatches raw ms last) := by
  intro ms
  induction ms with
  | nil =>
    intro last
    rw [emitMatches]
    exact tagSafe_escapeHtml _
  | cons m ms ih =>
    intro last
    obtain ⟨ps, pe⟩ := m
    rw [emitMatches]
    exact tagSafe_escapeHtml_append _ (TagSafe.openTag
      (tagSafe_escapeHtml_append _ (TagSafe.closeTag (ih pe))))

theorem removeITags_escapeHtml (x : List Char) :
    removeITags (escapeHtml x) = escapeHtml x := by
  have := removeITags_append_esc (escapeHtml x) [] (fun c hc => escapeHtml_ne_lt hc)
  rw [List.append_nil] at this
  rw [this, show removeITags ([] : List Char) = [] from rfl, List.append_nil]

/-- Round trip: stripping the inserted italics markup and undoing the HTML
escapes recovers the raw line exactly, whatever the matching rule. -/
theorem italicize_roundTrip (raw : List Char) (re : Option (List (List Tok))) :
    unescapeHtml (removeITags (italicizeLineWholeWords raw re)) = raw := by
  cases re with
  | none =>
    rw [italicizeLineWholeWords, removeITags_escapeHtml, unescapeHtml_escapeHtml]
  | some alts =>
    rw [italicizeLineWholeWords,
      removeITags_emit raw (findMatches alts raw) 0 (scanAux_chain alts _ raw 0 true),
      List.drop_zero, unescapeHtml_escapeHtml]

/-- Structure of every italicizer output: inserted tags plus escapes. -/
theorem tagSafe_italicize (raw : List Char) (re : Option (List (List Tok))) :
    TagSafe (italicizeLineWholeWords raw re) := by
  cases re with
  | none => rw [italicizeLineWholeWords]; exact tagSafe_escapeHtml raw
  | some alts => rw [italicizeLineWholeWords]; exact tagSafe_emit raw _ 0

/-! ## The longest-first stable sort of the matcher builder -/

theorem insertByLen_perm (x : List Char) (l : List (List Char)) :
    List.Perm (insertByLen x l) (x :: l) := by
  induction l with
  | nil => rfl
  | cons y ys ih =>
    rw [insertByLen]
    by_cases h : jsLen y ≤ jsLen x
    · rw [if_pos h]
    · rw [if_neg h]
      exact List.Perm.trans (List.Perm.cons y ih) (List.Perm.swap x y ys)

theorem sortByLenDesc_perm (l : List (List Char)) :
    List.Perm (sortByLenDesc l) l := by
  induction l with
  | nil => rfl
  | cons x xs ih =>
    rw [sortByLenDesc]
    exact List.Perm.trans (insertByLen_perm x (sortByLenDesc xs)) (List.Perm.cons x ih)

theorem insertByLen_sorted {x : List Char} {l : List (List Char)}
    (hl : List.Pairwise (fun a b => jsLen b ≤ jsLen a) l) :
    List.Pairwise (fun a b => jsLen b ≤ jsLen a) (insertByLen x l) := by
  induction l with
  | nil => simp [insertByLen]
  | cons y ys ih =>
    rw [insertByLen]
    by_cases h : jsLen y ≤ jsLen x
    · rw [if_pos h]
      refine List.Pairwise.cons ?_ hl
      intro z hz
      rcases List.mem_cons.mp hz with rfl | hz
      · exact h
      · exact le_trans (List.rel_of_pairwise_cons hl hz) h
    · rw [if_neg h]
      refine List.Pairwise.cons ?_ (ih (List.Pairwise.sublist (List.sublist_cons_self y ys) hl))
      intro z hz
      have hz' := (insertByLen_perm x ys).mem_iff.mp hz
      rcases List.mem_cons.mp hz' with rfl | hz'
      · omega
      · exact List.rel_of_pairwise_cons hl hz'

theorem sortByLenDesc_sorted (l : List (List Char)) :
    List.Pairwise (fun a b => jsLen b ≤ jsLen a) (sortByLenDesc l) := by
  induction l with
  | nil => simp [sortByLenDesc]
  | cons x xs ih => rw [sortByLenDesc]; exact insertByLen_sorted ih

theorem insertByLen_filter_len (x : List Char) (l : List (List Char)) (n : Nat) :
    (insertByLen x l).filter (fun p => jsLen p == n) =
      (x :: l).filter (fun p => jsLen p == n) := by
  induction l with
  | nil => rfl
  | cons y ys ih =>
    rw [insertByLen]
    by_cases h : jsLen y ≤ jsLen x
    · rw [if_pos h]
    · rw [if_neg h]
      by_cases hx : jsLen x = n
      · by_cases hy : jsLen y = n
        · omega
        · simp only [List.filter_cons, ih]
          simp [hx, hy]
      · simp only [List.filter_cons, ih]
        simp [hx]

theorem sortByLenDesc_stable (l : List (List Char)) (n : Nat) :
    (sortByLenDesc l).filter (fun p => jsLen p == n) =
      l.filter (fun p => jsLen p == n) := by
  induction l with
  | nil => rfl
  | cons x xs ih =>
    rw [sortByLenDesc, insertByLen_filter_len, List.filter_cons, List.filter_cons, ih]

/-! ## Helper lemmas for the parser and the normalizer -/

theorem takeWhile_append_stop {p : Char → Bool} :
    ∀ (h : List Char) (c : Char) (r : List Char), (∀ x ∈ h, p x = true) → p c = false →
      (h ++ c :: r).takeWhile p = h ∧ (h ++ c :: r).dropWhile p = c :: r := by
  intro h
  induction h with
  | nil =>
    intro c r _ hc
    constructor
    · rw [List.nil_append, List.takeWhile_cons_of_neg (by simp [hc])]
    · rw [List.nil_append, List.dropWhile_cons_of_neg (by simp [hc])]
  | cons d h ih =>
    intro c r hall hc
    obtain ⟨iht, ihd⟩ := ih c r (fun x hx => hall x (by simp [hx])) hc
    constructor
    · rw [List.cons_append, List.takeWhile_cons_of_pos (by simp [hall d (by simp)]), iht]
    · rw [List.cons_append, List.dropWhile_cons_of_pos (by simp [hall d (by simp)]), ihd]

theorem dropWhile_append_all {p : Char → Bool} :
    ∀ (w l : List Char), (∀ c ∈ w, p c = true) → (w ++ l).dropWhile p = l.dropWhile p := by
  intro w
  induction w with
  | nil => intro l _; rfl
  | cons c w ih =>
    intro l hall
    rw [List.cons_append, List.dropWhile_cons_of_pos (by simp [hall c (by simp)]),
      ih l (fun x hx => hall x (by simp [hx]))]

theorem mem_of_mem_jsTrim {c : Char} {l : List Char} (h : c ∈ jsTrim l) : c ∈ l := by
  unfold jsTrim at h
  rw [List.mem_reverse] at h
  have h2 := (List.dropWhile_suffix isJsWs).sublist.mem h
  rw [List.mem_reverse] at h2
  exact (List.dropWhile_suffix isJsWs).sublist.mem h2

theorem splitTimeLineAux_none_of_no_comma :
    ∀ (l acc : List Char), ',' ∉ l → splitTimeLineAux acc l = none := by
  intro l
  induction l with
  | nil => intro acc _; rfl
  | cons c rest ih =>
    intro acc hnc
    rw [splitTimeLineAux, if_neg (by intro hc; exact hnc (by simp [hc]))]
    exact ih _ (fun hm => hnc (by simp [hm]))

theorem splitTimeLine_none_of_no_comma {l : List Char} (h : ',' ∉ l) :
    splitTimeLine l = none := by
  rw [splitTimeLine.eq_def]
  by_cases ht : l.any isLineTerm
  · rw [if_pos ht]
  · rw [if_neg ht]
    cases l with
    | nil => rfl
    | cons c rest => exact splitTimeLineAux_none_of_no_comma rest [c] (fun hm => h (by simp [hm]))

theorem splitTimeLineAux_spec :
    ∀ (rest acc a b : List Char), splitTimeLineAux acc rest = some (a, b) →
      ∃ mid, a = acc.reverse ++ mid ∧ ',' ∉ mid ∧ rest = mid ++ ',' :: b ∧ b ≠ [] := by
  intro rest
  induction rest with
  | nil => intro acc a b h; simp [splitTimeLineAux] at h
  | cons c rest ih =>
    intro acc a b h
    rw [splitTimeLineAux] at h
    by_cases hc : c = ','
    · rw [if_pos hc] at h
      by_cases hr : rest = []
      · rw [if_pos hr] at h; exact absurd h (by simp)
      · rw [if_neg hr] at h
        simp only [Option.some.injEq, Prod.mk.injEq] at h
        obtain ⟨rfl, rfl⟩ := h
        exact ⟨[], by simp, by simp, by simp [hc], hr⟩
    · rw [if_neg hc] at h
      obtain ⟨mid, ha, hm, hr, hb⟩ := ih (c :: acc) a b h
      refine ⟨c :: mid, ?_, ?_, by simp [hr], hb⟩
      · rw [ha, List.reverse_cons, List.append_assoc]; rfl
      · intro hmem
        rcases List.mem_cons.mp hmem with rfl | hmem
        · exact hc rfl
        · exact hm hmem

/-- Characterization of a successful time-line split: both fields are
non-empty, the line is the two fields around the separating comma, and the
start field contains no comma except possibly as its very first
character. -/
theorem splitTimeLine_spec {l a b : List Char} (h : splitTimeLine l = some (a, b)) :
    a ≠ [] ∧ b ≠ [] ∧ l = a ++ ',' :: b ∧ ',' ∉ a.drop 1 := by
  rw [splitTimeLine.eq_def] at h
  by_cases ht : l.any isLineTerm
  · rw [if_pos ht] at h; exact absurd h (by simp)
  · rw [if_neg ht] at h
    cases l with
    | nil => exact absurd h (by simp)
    | cons c rest =>
      obtain ⟨mid, ha, hm, hr, hb⟩ := splitTimeLineAux_spec rest [c] a b h
      refine ⟨by simp [ha], hb, ?_, ?_⟩
      · rw [hr, ha]; rfl
      · rw [ha]
        simpa using hm

/-- Discard step of the parser: a non-blank line whose time-line match
fails is skipped and parsing resumes at the next line. -/
theorem parseCuesAux_discard {l : List Char} (rest : List (List Char)) (fuel : Nat)
    (hnb : jsTrim l ≠ []) (hsplit : splitTimeLine (jsTrim l) = none) :
    parseCuesAux (fuel + 1) (l :: rest) = parseCuesAux fuel rest := by
  rw [parseCuesAux, if_neg hnb, hsplit]

theorem tsParse_shape (h : List Char) (m1 m2 s1 s2 x1 x2 x3 : Char)
    (hh : h ≠ []) (hd : ∀ c ∈ h, c.isDigit = true)
    (h1 : m1.isDigit = true) (h2 : m2.isDigit = true) (h3 : s1.isDigit = true)
    (h4 : s2.isDigit = true) (h5 : x1.isDigit = true) (h6 : x2.isDigit = true)
    (h7 : x3.isDigit = true) :
    tsParse (h ++ ':' :: m1 :: m2 :: ':' :: s1 :: s2 :: '.' :: x1 :: x2 :: x3 :: []) =
      some (h, [m1, m2], [s1, s2, '.', x1, x2, x3]) := by
  obtain ⟨ht, hdr⟩ := takeWhile_append_stop h ':'
    (m1 :: m2 :: ':' :: s1 :: s2 :: '.' :: x1 :: x2 :: x3 :: []) hd (by decide)
  unfold tsParse
  simp only [ht, hdr]
  rw [if_pos ⟨hh, h1, h2, h3, h4, h5, h6, h7⟩]

theorem dropWhile_append_split {p : Char → Bool} :
    ∀ u v : List Char, (u ++ v).dropWhile p = u.dropWhile p ++ v ∨
      (u.dropWhile p = [] ∧ (u ++ v).dropWhile p = v.dropWhile p) := by
  intro u
  induction u with
  | nil => intro v; right; exact ⟨rfl, rfl⟩
  | cons c u ih =>
    intro v
    by_cases hc : p c
    · rw [List.cons_append, List.dropWhile_cons_of_pos hc, List.dropWhile_cons_of_pos hc]
      exact ih v
    · left
      rw [List.cons_append, List.dropWhile_cons_of_neg hc, List.dropWhile_cons_of_neg hc,
        List.cons_append]

theorem trimEndWs_header (b : List Char) :
    ∃ r, trimEndWs ("WEBVTT\n\n".data ++ b) = "WEBVTT".data ++ r := by
  unfold trimEndWs
  rw [List.reverse_append,
    show ("WEBVTT\n\n".data).reverse = '\n' :: '\n' :: "TTVBEW".data from by decide]
  rcases dropWhile_append_split (p := isJsWs) b.reverse ('\n' :: '\n' :: "TTVBEW".data) with
    h | ⟨h0, h⟩
  · rw [h, List.reverse_append]
    refine ⟨'\n' :: '\n' :: (b.reverse.dropWhile isJsWs).reverse, ?_⟩
    rw [show ('\n' :: '\n' :: "TTVBEW".data).reverse = "WEBVTT".data ++ ['\n', '\n'] from by
      decide]
    simp
  · rw [h, show ('\n' :: '\n' :: "TTVBEW".data).dropWhile isJsWs = "TTVBEW".data from by decide]
    exact ⟨[], by decide⟩

/-! ## The claims -/

/-- C1 (code behavior at the failing input): the builder really does sort
longest-first — its sort is proved sorted by descending length, a
permutation, and stable — but the escape-undo never fires, so the
"New York City" alternative compiles to the literal token sequence
"New\s+York\s+City" and can never match the real line: the code italicizes
only "York".  On a line carrying those literal characters the longer
alternative does win, isolating the slip to the whitespace compilation. -/
theorem claim1_longest_match_code_behavior :
    compilePhrase (jsTrim "New York City".data) =
      [Tok.lit 'N', Tok.lit 'e', Tok.lit 'w', Tok.lit '\\', Tok.lit 's', Tok.lit '+',
       Tok.lit 'Y', Tok.lit 'o', Tok.lit 'r', Tok.lit 'k', Tok.lit '\\', Tok.lit 's',
       Tok.lit '+', Tok.lit 'C', Tok.lit 'i', Tok.lit 't', Tok.lit 'y'] ∧
    italicizeLineWholeWords "I live in New York City".data
        (buildItalicsRegex ["York".data, "New York City".data]) =
      "I live in New <i>York</i> City".data ∧
    italicizeLineWholeWords "I live in New\\s+York\\s+City".data
        (buildItalicsRegex ["York".data, "New York City".data]) =
      "I live in <i>New\\s+York\\s+City</i>".data ∧
    ∀ phrases : List (List Char),
      List.Pairwise (fun a b => jsLen b ≤ jsLen a) (sortByLenDesc phrases) ∧
      List.Perm (sortByLenDesc phrases) phrases ∧
      ∀ n, (sortByLenDesc phrases).filter (fun p => jsLen p == n) =
        phrases.filter (fun p => jsLen p == n) :=
  ⟨by decide, by decide, by decide, fun phrases => ⟨sortByLenDesc_sorted phrases,
    sortByLenDesc_perm phrases, fun n => sortByLenDesc_stable phrases n⟩⟩

/-- C2 (code behavior at the failing input): whitespace flexibility does
not exist in the code.  The phrase "Foo Bar" compiles to the literal token
sequence "Foo\s+Bar", so neither the exact phrase text nor a multi-space
nor a tab variant is matched or italicized, while a line carrying the
literal characters backslash-s-plus is. -/
theorem claim2_whitespace_code_behavior :
    compilePhrase (jsTrim "Foo Bar".data) =
      [Tok.lit 'F', Tok.lit 'o', Tok.lit 'o', Tok.lit '\\', Tok.lit 's', Tok.lit '+',
       Tok.lit 'B', Tok.lit 'a', Tok.lit 'r'] ∧
    italicizeLineWholeWords "say Foo Bar now".data (buildItalicsRegex ["Foo Bar".data]) =
      "say Foo Bar now".data ∧
    italicizeLineWholeWords "say Foo   Bar now".data (buildItalicsRegex ["Foo Bar".data]) =
      "say Foo   Bar now".data ∧
    italicizeLineWholeWords "say Foo\tBar now".data (buildItalicsRegex ["Foo Bar".data]) =
      "say Foo\tBar now".data ∧
    italicizeLineWholeWords "say Foo\\s+Bar now".data (buildItalicsRegex ["Foo Bar".data]) =
      "say <i>Foo\\s+Bar</i> now".data :=
  ⟨by decide, by decide, by decide, by decide, by decide⟩

/-- C3: whole-word boundary matching.  Every span the scanner reports
starts at the line start or right after a non-word character and ends at
the line end or right before a non-word character; concretely, the phrase
"art" is not italicized inside "start" or "artistic" but is italicized in
"the art show", "art show" and "modern art". -/
theorem claim3_whole_word_boundaries :
    (∀ alts line ps pe, (ps, pe) ∈ findMatches alts line →
      (ps = 0 ∨ ∃ c t, line.drop (ps - 1) = c :: t ∧ isWordCh c = false) ∧
      (line.drop pe = [] ∨ ∃ c t, line.drop pe = c :: t ∧ isWordCh c = false)) ∧
    italicizeLineWholeWords "start".data (buildItalicsRegex ["art".data]) = "start".data ∧
    italicizeLineWholeWords "artistic".data (buildItalicsRegex ["art".data]) =
      "artistic".data ∧
    italicizeLineWholeWords "the art show".data (buildItalicsRegex ["art".data]) =
      "the <i>art</i> show".data ∧
    italicizeLineWholeWords "art show".data (buildItalicsRegex ["art".data]) =
      "<i>art</i> show".data ∧
    italicizeLineWholeWords "modern art".data (buildItalicsRegex ["art".data]) =
      "modern <i>art</i>".data := by
  refine ⟨?_, by decide, by decide, by decide, by decide, by decide⟩
  intro alts line ps pe hmem
  exact scanAux_boundary alts line _ line 0 true (by rw [List.drop_zero]) (fun _ => rfl)
    ps pe hmem

theorem claim3_whole_word_boundaries_witness :
    (((6 : Nat) = 0 ∨ ∃ c t, ("Hello world".data).drop (6 - 1) = c :: t ∧
        isWordCh c = false) ∧
      (("Hello world".data).drop 11 = [] ∨ ∃ c t, ("Hello world".data).drop 11 = c :: t ∧
        isWordCh c = false)) :=
  claim3_whole_word_boundaries.1
    [[Tok.lit 'w', Tok.lit 'o', Tok.lit 'r', Tok.lit 'l', Tok.lit 'd']]
    "Hello world".data 6 11 (by decide)

/-- C4: injection safety.  Every italicizer output is a concatenation of
the system's own inserted tags and HTML escapes of single input characters
(so the five special characters never appear raw and no other
transformation is applied), and stripping the tags and escapes recovers
the input; concretely a line containing a script tag comes out fully
escaped. -/
theorem claim4_injection_safety :
    (∀ raw re, TagSafe (italicizeLineWholeWords raw re) ∧
      unescapeHtml (removeITags (italicizeLineWholeWords raw re)) = raw) ∧
    italicizeLineWholeWords "<script>".data none = "&lt;script&gt;".data ∧
    italicizeLineWholeWords "a <script> b".data (buildItalicsRegex ["world".data]) =
      "a &lt;script&gt; b".data :=
  ⟨fun raw re => ⟨tagSafe_italicize raw re, italicize_roundTrip raw re⟩, by decide, by decide⟩

/-- C5 counterexample: the input "123:45:56.789" matches the timestamp
shape (its hour group is "123"), yet the normalizer's output still has a
three-digit hour field — not exactly two digits as the claim states. -/
theorem claim5_counterexample :
    tsParse ("123:45:56.789".data) = some ("123".data, "45".data, "56.789".data) ∧
    normalizeHour ("123:45:56.789".data) = "123:45:56.789".data ∧
    ("123".data).length ≠ 2 := by decide

/-- C5 (amended): for every input of the timestamp shape the normalizer
left-pads the hour field to width at least two — exactly two when the given
hour has at most two digits, unchanged when it is longer — and preserves
the minute, second and millisecond fields as given; every input not
matching the shape is returned unchanged. -/
theorem claim5_two_digit_hour_amended :
    (∀ (h : List Char) (m1 m2 s1 s2 x1 x2 x3 : Char), h ≠ [] →
      (∀ c ∈ h, c.isDigit = true) →
      m1.isDigit = true → m2.isDigit = true → s1.isDigit = true → s2.isDigit = true →
      x1.isDigit = true → x2.isDigit = true → x3.isDigit = true →
      normalizeHour (h ++ ':' :: m1 :: m2 :: ':' :: s1 :: s2 :: '.' :: x1 :: x2 :: x3 :: []) =
        padStart2 h ++ ':' :: m1 :: m2 :: ':' :: s1 :: s2 :: '.' :: x1 :: x2 :: x3 :: [] ∧
      (padStart2 h).length = max 2 h.length) ∧
    (∀ l, tsParse l = none → normalizeHour l = l) := by
  constructor
  · intro h m1 m2 s1 s2 x1 x2 x3 hh hd h1 h2 h3 h4 h5 h6 h7
    have hts := tsParse_shape h m1 m2 s1 s2 x1 x2 x3 hh hd h1 h2 h3 h4 h5 h6 h7
    constructor
    · unfold normalizeHour
      simp [hts]
    · have hlen : (padStart2 h).length = (2 - h.length) + h.length := by
        simp [padStart2]
      omega
  · intro l hl
    unfold normalizeHour
    rw [hl]

theorem claim5_two_digit_hour_amended_witness :
    normalizeHour ("0".data ++ ':' :: '0' :: '0' :: ':' :: '0' :: '2' :: '.' ::
        '0' :: '0' :: '0' :: []) =
      padStart2 "0".data ++ ':' :: '0' :: '0' :: ':' :: '0' :: '2' :: '.' ::
        '0' :: '0' :: '0' :: [] ∧
    (padStart2 "0".data).length = max 2 ("0".data).length :=
  claim5_two_digit_hour_amended.1 "0".data '0' '0' '0' '2' '0' '0' '0' (by decide)
    (by decide) (by decide) (by decide) (by decide) (by decide) (by decide) (by decide)
    (by decide)

/-- C6: malformed time-line recovery.  While seeking a time line, a
non-blank line containing no comma is silently discarded and parsing
continues at the next line; concretely, a document with such a line between
two valid cue blocks yields exactly the two valid cues, in document
order. -/
theorem claim6_malformed_time_line_recovery :
    (∀ (l : List Char) (rest : List (List Char)) (fuel : Nat),
      jsTrim l ≠ [] → ',' ∉ l →
      parseCuesAux (fuel + 1) (l :: rest) = parseCuesAux fuel rest) ∧
    parseCues (splitOnNl (normEol
        "0:00:00.000,0:00:02.000\nA\n\nnot a time line\n\n0:00:04.000,0:00:06.000\nB".data)) =
      [("00:00:00.000".data, "00:00:02.000".data, ["A".data]),
       ("00:00:04.000".data, "00:00:06.000".data, ["B".data])] := by
  constructor
  · intro l rest fuel hnb hnc
    exact parseCuesAux_discard rest fuel hnb
      (splitTimeLine_none_of_no_comma (fun hm => hnc (mem_of_mem_jsTrim hm)))
  · decide

theorem claim6_malformed_time_line_recovery_witness :
    parseCuesAux (0 + 1) ("garbage".data :: []) = parseCuesAux 0 [] :=
  claim6_malformed_time_line_recovery.1 "garbage".data [] 0 (by decide) (by decide)

/-- C7: end-to-end scenario.  Converting the two-cue SBV document with the
single phrase "world" yields exactly the expected WebVTT text, ending in
one newline. -/
theorem claim7_end_to_end :
    convertCore "0:00:00.000,0:00:02.000\nHello world\n\n0:00:02.000,0:00:04.000\nGoodbye"
        "world" =
      "WEBVTT\n\n00:00:00.000 --> 00:00:02.000\nHello <i>world</i>\n\n00:00:02.000 --> 00:00:04.000\nGoodbye\n" := by
  decide

/-- C8: totality.  The conversion core is a total function: for every
document text and every phrase text it returns a string, which moreover
always starts with the WEBVTT header and ends with exactly the final
appended newline. -/
theorem claim8_totality :
    ∀ sbvText italicsText : String, ∃ r : List Char,
      (convertCore sbvText italicsText).data = "WEBVTT".data ++ (r ++ ['\n']) ∧
      ((convertCore sbvText italicsText).data).getLast? = some '\n' := by
  intro s t
  obtain ⟨r, hr⟩ := trimEndWs_header
    ((List.map (renderCue (buildItalicsRegex (buildItalicsList t.data)))
      (parseCues (splitOnNl (normEol s.data)))).flatten)
  refine ⟨r, ?_, ?_⟩
  · show sbvToVtt s.data (buildItalicsRegex (buildItalicsList t.data)) =
      "WEBVTT".data ++ (r ++ ['\n'])
    rw [sbvToVtt, hr, List.append_assoc]
  · show (sbvToVtt s.data (buildItalicsRegex (buildItalicsList t.data))).getLast? =
      some '\n'
    rw [sbvToVtt]
    exact List.getLast?_concat _

/-- C9 counterexample: the line ",0:00:01.000,0:00:02.000" contains a comma
with nothing before it, yet it is not discarded: it matches the time-line
pattern with the split at its second comma, so the start field keeps the
leading comma and the claim's first-comma rule fails. -/
theorem claim9_counterexample :
    splitTimeLine (",0:00:01.000,0:00:02.000".data) =
      some (",0:00:01.000".data, "0:00:02.000".data) ∧
    parseCues [",0:00:01.000,0:00:02.000".data, "X".data] =
      [(",0:00:01.000".data, "00:00:02.000".data, ["X".data])] := by decide

/-- C9 (amended): a non-blank line with no comma having at least one
character on each side — such as ",0:00:01.000" or "0:00:01.000," — is
discarded exactly like a no-comma line, and a successful time-line match
never has an empty start or end group.  When a line does match, the split
occurs at the first comma that is not the line's first character (not
necessarily the first comma overall): the end field keeps all later commas,
and a comma at position 0 becomes part of the start field. -/
theorem claim9_time_line_split_amended :
    (∀ l a b, splitTimeLine l = some (a, b) →
      a ≠ [] ∧ b ≠ [] ∧ l = a ++ ',' :: b ∧ ',' ∉ a.drop 1) ∧
    (∀ l : List Char, (∀ a b : List Char, l = a ++ ',' :: b → a = [] ∨ b = []) →
      splitTimeLine l = none) ∧
    splitTimeLine (",0:00:01.000".data) = none ∧
    splitTimeLine ("0:00:01.000,".data) = none ∧
    splitTimeLine ("a,b,c".data) = some ("a".data, "b,c".data) ∧
    (∀ (l : List Char) (rest : List (List Char)) (fuel : Nat),
      jsTrim l ≠ [] → splitTimeLine (jsTrim l) = none →
      parseCuesAux (fuel + 1) (l :: rest) = parseCuesAux fuel rest) := by
  refine ⟨fun l a b h => splitTimeLine_spec h, ?_, by decide, by decide, by decide, ?_⟩
  · intro l hno
    cases h : splitTimeLine l with
    | none => rfl
    | some ab =>
      obtain ⟨a, b⟩ := ab
      obtain ⟨ha, hb, hl, _⟩ := splitTimeLine_spec h
      rcases hno a b hl with h' | h'
      · exact absurd h' ha
      · exact absurd h' hb
  · intro l rest fuel hnb hs
    exact parseCuesAux_discard rest fuel hnb hs

theorem claim9_time_line_split_amended_witness :
    "a".data ≠ [] ∧ "b,c".data ≠ [] ∧
      "a,b,c".data = "a".data ++ ',' :: "b,c".data ∧ ',' ∉ ("a".data).drop 1 :=
  claim9_time_line_split_amended.1 "a,b,c".data "a".data "b,c".data (by decide)

/-- C10: content preservation.  For every raw cue line and every matching
rule (including none), removing the inserted italics tags from the
italicizer's output and reversing the five HTML entity escapes yields
exactly the original line: the output is assembled from contiguous,
non-overlapping slices of the raw line covering it exactly once. -/
theorem claim10_content_preservation (raw : List Char) (re : Option (List (List Tok))) :
    unescapeHtml (removeITags (italicizeLineWholeWords raw re)) = raw :=
  italicize_roundTrip raw re

example : splitTimeLine ("0:00:00.000,0:00:02.000".data) =
    some ("0:00:00.000".data, "0:00:02.000".data) := by decide
example : normalizeHour ("0:00:02.000".data) = "00:00:02.000".data := by decide
example : normalizeHour ("bogus".data) = "bogus".data := by decide
example : escapeHtml ("<script>".data) = "&lt;script&gt;".data := by decide
example :
    italicizeLineWholeWords "Hello world".data
      (buildItalicsRegex ["world".data]) = "Hello <i>world</i>".data := by decide
